import Mathlib

set_option maxRecDepth 4000

/-!
Shallow embedding of the `bitstream` Go package (creachadair/bitstream): a
`Reader` that serves 0–64-bit reads out of a 64-bit shift register refilled
from an underlying byte source, a `Writer` that accumulates 0–64-bit writes
into a 64-bit shift register drained to an underlying byte sink, an optional
per-byte bit-reversal policy (the `MSBFirst`/`LSBFirst` options and the
`bitReverse` table), and the byte-stream adapters (`Reader.Read` and
`Writer.Write` from io.go).

Machine integers are modelled as `Nat` with explicit `% 2 ^ 64` at the points
where the Go uint64 arithmetic can wrap.  Byte slices are `List Nat` whose
elements are below 256 (the Go `[]byte` type invariant carried as hypotheses
where needed).  The underlying io.Reader / io.Writer are modelled as they are
observed through `io.ReadFull` / `Write`: a byte supply that delivers the
next min(8, available) bytes per refill (short or empty delivery is the EOF
family, normalized by `ReadBits` itself), or fails with a transport error
delivering nothing; and a byte sink that either accepts every write or fails
every write with a transport error.
-/

namespace Bitstream

/-- Error outcomes of the package: `ErrCountRange`, `io.EOF`, or any error of
the underlying transport (`code` distinguishes transport errors). -/
inductive Err where
  | countRange
  | eof
  | transport (code : Nat)
deriving DecidableEq, Repr

/-- The 256-entry table `bitReverse` mapping each byte value to its bit
reversal, exactly as listed in the source. -/
def bitReverse : List Nat :=
  [0x00, 0x80, 0x40, 0xc0, 0x20, 0xa0, 0x60, 0xe0,
   0x10, 0x90, 0x50, 0xd0, 0x30, 0xb0, 0x70, 0xf0,
   0x08, 0x88, 0x48, 0xc8, 0x28, 0xa8, 0x68, 0xe8,
   0x18, 0x98, 0x58, 0xd8, 0x38, 0xb8, 0x78, 0xf8,
   0x04, 0x84, 0x44, 0xc4, 0x24, 0xa4, 0x64, 0xe4,
   0x14, 0x94, 0x54, 0xd4, 0x34, 0xb4, 0x74, 0xf4,
   0x0c, 0x8c, 0x4c, 0xcc, 0x2c, 0xac, 0x6c, 0xec,
   0x1c, 0x9c, 0x5c, 0xdc, 0x3c, 0xbc, 0x7c, 0xfc,
   0x02, 0x82, 0x42, 0xc2, 0x22, 0xa2, 0x62, 0xe2,
   0x12, 0x92, 0x52, 0xd2, 0x32, 0xb2, 0x72, 0xf2,
   0x0a, 0x8a, 0x4a, 0xca, 0x2a, 0xaa, 0x6a, 0xea,
   0x1a, 0x9a, 0x5a, 0xda, 0x3a, 0xba, 0x7a, 0xfa,
   0x06, 0x86, 0x46, 0xc6, 0x26, 0xa6, 0x66, 0xe6,
   0x16, 0x96, 0x56, 0xd6, 0x36, 0xb6, 0x76, 0xf6,
   0x0e, 0x8e, 0x4e, 0xce, 0x2e, 0xae, 0x6e, 0xee,
   0x1e, 0x9e, 0x5e, 0xde, 0x3e, 0xbe, 0x7e, 0xfe,
   0x01, 0x81, 0x41, 0xc1, 0x21, 0xa1, 0x61, 0xe1,
   0x11, 0x91, 0x51, 0xd1, 0x31, 0xb1, 0x71, 0xf1,
   0x09, 0x89, 0x49, 0xc9, 0x29, 0xa9, 0x69, 0xe9,
   0x19, 0x99, 0x59, 0xd9, 0x39, 0xb9, 0x79, 0xf9,
   0x05, 0x85, 0x45, 0xc5, 0x25, 0xa5, 0x65, 0xe5,
   0x15, 0x95, 0x55, 0xd5, 0x35, 0xb5, 0x75, 0xf5,
   0x0d, 0x8d, 0x4d, 0xcd, 0x2d, 0xad, 0x6d, 0xed,
   0x1d, 0x9d, 0x5d, 0xdd, 0x3d, 0xbd, 0x7d, 0xfd,
   0x03, 0x83, 0x43, 0xc3, 0x23, 0xa3, 0x63, 0xe3,
   0x13, 0x93, 0x53, 0xd3, 0x33, 0xb3, 0x73, 0xf3,
   0x0b, 0x8b, 0x4b, 0xcb, 0x2b, 0xab, 0x6b, 0xeb,
   0x1b, 0x9b, 0x5b, 0xdb, 0x3b, 0xbb, 0x7b, 0xfb,
   0x07, 0x87, 0x47, 0xc7, 0x27, 0xa7, 0x67, 0xe7,
   0x17, 0x97, 0x57, 0xd7, 0x37, 0xb7, 0x77, 0xf7,
   0x0f, 0x8f, 0x4f, 0xcf, 0x2f, 0xaf, 0x6f, 0xef,
   0x1f, 0x9f, 0x5f, 0xdf, 0x3f, 0xbf, 0x7f, 0xff]

/-- One step of `flipBits`: the table lookup `bitReverse[int(b)]`. -/
def flipByte (b : Nat) : Nat := bitReverse.getD b 0

/-- The function `flipBits`: reverse the bits of each byte of `data`. -/
def flipBits (data : List Nat) : List Nat := data.map flipByte

/-- The function `noFlip`: the identity transform used for `MSBFirst`. -/
def noFlip (data : List Nat) : List Nat := data

/-- A bit-order policy is the `flipBits` function chosen at construction:
`false` is `MSBFirst` (`noFlip`, the default), `true` is `LSBFirst`
(`flipBits`). -/
def applyFlip (flip : Bool) (data : List Nat) : List Nat :=
  if flip then flipBits data else noFlip data

/-- The fold `binary.BigEndian.Uint64` performs over its 8 bytes, also the
byte-accumulation loop of `Writer.Write` (`v = v<<8 | uint64(b)`), in uint64
arithmetic. -/
def beUint64 (bs : List Nat) : Nat :=
  bs.foldl (fun a b => ((a <<< 8) ||| b) % 2 ^ 64) 0

/-- The 8 bytes `binary.BigEndian.PutUint64` stores for `v`: `buf[0] =
byte(v>>56)`, ..., `buf[7] = byte(v)`; the Go `byte(x)` conversion is
`x % 256`. -/
def beBytes8 (v : Nat) : List Nat :=
  [(v >>> 56) % 256, (v >>> 48) % 256, (v >>> 40) % 256, (v >>> 32) % 256,
   (v >>> 24) % 256, (v >>> 16) % 256, (v >>> 8) % 256, v % 256]

/-- The underlying io.Reader as observed through `io.ReadFull(r.r, buf[8:])`:
either it delivers the next `min 8` available bytes — a delivery of fewer
than 8 bytes is the `io.EOF` / `io.ErrUnexpectedEOF` family, which `ReadBits`
normalizes away — or it fails with a transport error and delivers nothing. -/
structure Src where
  data : List Nat
  failNow : Bool
  failCode : Nat
deriving DecidableEq, Repr

/-- Result of one refill attempt. -/
inductive RefillRes where
  | ok (bs : List Nat)
  | fail (code : Nat)
deriving DecidableEq, Repr

/-- One `io.ReadFull` refill request for 8 bytes. -/
def Src.refill (s : Src) : RefillRes × Src :=
  if s.failNow then (.fail s.failCode, s)
  else (.ok (s.data.take 8), { s with data := s.data.drop 8 })

/-- The `Reader` state: the source, the bit-order policy chosen at
construction, and the register `buf` whose low `nb` bits hold data read from
the source but not yet delivered (bits at index ≥ `nb` are garbage). -/
structure Reader where
  src : Src
  flip : Bool
  buf : Nat
  nb : Nat
deriving DecidableEq, Repr

/-- The `NewReader` constructor over a plain byte source. -/
def NewReader (flip : Bool) (data : List Nat) : Reader :=
  ⟨⟨data, false, 0⟩, flip, 0, 0⟩

/-- The `Reader.ReadBits(count, v)` method.  The result is `(n, err, v?, r)`:
the bit count returned, the error, the value stored into `*v` (`none` when
the code returns without writing `*v`), and the updated reader. -/
def Reader.readBits (r : Reader) (count : Int) : Nat × Option Err × Option Nat × Reader :=
  if count < 0 ∨ count > 64 then (0, some .countRange, none, r)
  else
    let ucount := count.toNat
    let out := r.buf &&& ((1 <<< r.nb) - 1) % 2 ^ 64
    if ucount ≤ r.nb then
      (ucount, none, some (out >>> (r.nb - ucount)), { r with nb := r.nb - ucount })
    else
      let nbits := r.nb
      match r.src.refill with
      | (.fail code, s') => (0, some (.transport code), none, { r with src := s' })
      | (.ok bs, s') =>
        let nr := bs.length
        let newbuf := beUint64 (applyFlip r.flip (List.replicate (8 - nr) 0 ++ bs))
        let newnb := 8 * nr
        let nleft0 := ucount - nbits
        let clamp := newnb < nleft0
        let nleft := if clamp then newnb else nleft0
        let err : Option Err := if clamp then some .eof else none
        let outv := ((out <<< nleft) ||| (newbuf >>> (newnb - nleft))) % 2 ^ 64
        (nbits + nleft, err, some outv,
          { r with src := s', buf := newbuf, nb := newnb - nleft })

/-- The byte sink (io.Writer) under a `Writer`: it either accepts every
write, appending the bytes, or fails every write with a transport error,
reporting `failRet` as its diagnostic byte count and accepting nothing. -/
structure Sink where
  written : List Nat
  failNow : Bool
  failCode : Nat
  failRet : Nat
deriving DecidableEq, Repr

/-- One call `w.w.Write(bs)`. -/
def Sink.write (s : Sink) (bs : List Nat) : Nat × Option Err × Sink :=
  if s.failNow then (s.failRet, some (.transport s.failCode), s)
  else (bs.length, none, { s with written := s.written ++ bs })

/-- The `Writer` state: the sink, the bit-order policy, and the register
`buf` whose low `nb` bits hold bits received but not yet delivered (bits at
index ≥ `nb` are garbage; the code maintains `nb < 64`). -/
structure Writer where
  sink : Sink
  flip : Bool
  buf : Nat
  nb : Nat
deriving DecidableEq, Repr

/-- The `NewWriter` constructor over an accepting sink. -/
def NewWriter (flip : Bool) : Writer :=
  ⟨⟨[], false, 0, 0⟩, flip, 0, 0⟩

/-- The `Writer.WriteBits(count, v)` method: `(n, err, w)` with the returned
count (on sink failure, the sink's own byte-count return), the error, and
the updated writer. -/
def Writer.writeBits (w : Writer) (count : Int) (v : Nat) : Nat × Option Err × Writer :=
  if count < 0 ∨ count > 64 then (0, some .countRange, w)
  else
    let ucount := count.toNat
    let n2copy := min (64 - w.nb) ucount
    let nleft := ucount - n2copy
    let out := ((w.buf <<< n2copy) % 2 ^ 64) ||| ((v % 2 ^ 64) >>> nleft)
    let nused := w.nb + n2copy
    if nused = 64 then
      match w.sink.write (applyFlip w.flip (beBytes8 out)) with
      | (nw, some e, s') => (nw, some e, { w with sink := s' })
      | (_, none, s') => (ucount, none, { w with sink := s', buf := v % 2 ^ 64, nb := nleft })
    else
      (ucount, none, { w with buf := out, nb := nused })

/-- The `Writer.Padding` method. -/
def Writer.padding (w : Writer) : Nat :=
  if w.nb % 8 ≠ 0 then 8 - w.nb % 8 else 0

/-- The `Writer.Flush` method. -/
def Writer.flush (w : Writer) : Option Err × Writer :=
  if w.nb ≠ 0 then
    let out := (w.buf <<< w.padding) % 2 ^ 64
    let skip := 8 - (w.nb + 7) / 8
    match w.sink.write (applyFlip w.flip ((beBytes8 out).drop skip)) with
    | (_, some e, s') => (some e, { w with sink := s' })
    | (_, none, s') => (none, { w with sink := s', nb := 0 })
  else (none, w)

/-- The helper `bitsToBytes` from io.go. -/
def bitsToBytes (n : Nat) : Nat := (n + 7) / 8

/-- The Go `copy(data[pos:], src)`: overwrite `data` from position `pos` with
`src`, truncating `src` at the end of `data`. -/
def overwrite : List Nat → Nat → List Nat → List Nat
  | [], _, _ => []
  | _ :: ds, 0, s :: ss => s :: overwrite ds 0 ss
  | d :: ds, 0, [] => d :: ds
  | d :: ds, p + 1, src => d :: overwrite ds p src

/-- The loop of `Writer.Write` from io.go, with the loop position expressed
as the remaining suffix of `data` (`pos+8 < len(data)` iff more than 8 bytes
remain).  `fuel` bounds the iteration count; `Writer.write` supplies enough
fuel that the 0 case is never reached. -/
def Writer.writeLoop : Nat → Writer → List Nat → Nat → Nat × Option Err × Writer
  | fuel, w, data, nbits =>
    if 8 < data.length then
      match fuel with
      | 0 => (bitsToBytes nbits, none, w)
      | fuel' + 1 =>
        match w.writeBits 64 (beUint64 (data.take 8)) with
        | (_, some e, w') => (bitsToBytes nbits, some e, w')
        | (nw, none, w') => Writer.writeLoop fuel' w' (data.drop 8) (nbits + nw)
    else if 0 < data.length then
      match w.writeBits (8 * data.length : Nat) (beUint64 data) with
      | (_, some e, w') => (bitsToBytes nbits, some e, w')
      | (nw, none, w') => (bitsToBytes (nbits + nw), none, w')
    else (bitsToBytes nbits, none, w)

/-- The `Writer.Write` method (io.Writer adapter) from io.go. -/
def Writer.write (w : Writer) (data : List Nat) : Nat × Option Err × Writer :=
  Writer.writeLoop data.length w data 0

/-- The loop of `Reader.Read` from io.go: `(nread, err, data, r)` after the
loop, carrying the Go loop variables.  `fuel` bounds the iteration count;
`Reader.read` supplies enough fuel that the 0 case is never reached. -/
def Reader.readLoop : Nat → Reader → List Nat → Nat → Nat → Option Err → Nat × Option Err × List Nat × Reader
  | fuel, r, data, pos, nread, err =>
    if pos < data.length ∧ err ≠ some .eof then
      match fuel with
      | 0 => (nread, err, data, r)
      | fuel' + 1 =>
        let next := min (pos + 8) data.length
        match r.readBits (8 * (next - pos) : Nat) with
        | (nbits, err', v?, r') =>
          if err' ≠ none ∧ err' ≠ some .eof then (nread, err', data, r')
          else
            let v2 := ((v?.getD 0) <<< (64 - nbits)) % 2 ^ 64
            let ncopied := bitsToBytes nbits
            let data' := overwrite data pos ((beBytes8 v2).take ncopied)
            Reader.readLoop fuel' r' data' next (nread + ncopied) err'
    else (nread, err, data, r)

/-- The `Reader.Read` method (io.Reader adapter) from io.go, reading into a
buffer with the given initial contents. -/
def Reader.read (r : Reader) (data : List Nat) : Nat × Option Err × List Nat × Reader :=
  Reader.readLoop data.length r data 0 0 none

/-- Run a sequence of `WriteBits` calls, keeping the writer state (scenario
plumbing for the literal test vector). -/
def writeBitsSeq (w : Writer) (ops : List (Int × Nat)) : Writer :=
  ops.foldl (fun w p => (w.writeBits p.1 p.2).2.2) w

/-- Run a sequence of `ReadBits` calls, collecting the delivered values
(scenario plumbing for the literal test vector). -/
def readValsSeq (r : Reader) (counts : List Int) : List Nat × Reader :=
  counts.foldl (fun acc c =>
    match acc.2.readBits c with
    | (_, _, v?, r') => (acc.1 ++ [v?.getD 0], r')) ([], r)

/-- Base-256 value of a byte list (proof-side reference meaning of the
big-endian folds above). -/
def beVal (bs : List Nat) : Nat :=
  bs.foldl (fun a b => a * 256 + b) 0

/-- A sink that accepts everything, with `written` so far. -/
def okSink (s : List Nat) : Sink := ⟨s, false, 0, 0⟩

/-! ### Arithmetic helper lemmas -/

/-- The uint64 mask `(1 << nb) - 1` equals `2 ^ nb - 1` whenever `nb ≤ 64`
(at `nb = 64` the Go shift wraps to 0 and the subtraction wraps to all
ones, which is again `2 ^ 64 - 1` modulo `2 ^ 64`). -/
theorem mask_eq {n : Nat} (h : n ≤ 64) : ((1 <<< n) - 1) % 2 ^ 64 = 2 ^ n - 1 := by
  rw [Nat.shiftLeft_eq, one_mul]
  exact Nat.mod_eq_of_lt (by
    have h2 : (2 : Nat) ^ n ≤ 2 ^ 64 := Nat.pow_le_pow_right (by norm_num) h
    omega)

/-- Masking with the uint64 mask is reduction mod `2 ^ nb`. -/
theorem and_mask_eq {x n : Nat} (h : n ≤ 64) :
    x &&& ((1 <<< n) - 1) % 2 ^ 64 = x % 2 ^ n := by
  rw [mask_eq h, Nat.and_pow_two_sub_one_eq_mod]

/-- Disjoint or is addition: `a <<< k ||| b = a * 2 ^ k + b` when `b < 2 ^ k`. -/
theorem shiftLeft_or_eq_add {a b k : Nat} (h : b < 2 ^ k) :
    (a <<< k) ||| b = a * 2 ^ k + b := by
  rw [Nat.shiftLeft_eq, Nat.mul_comm a (2 ^ k), ← Nat.mul_add_lt_is_or h a,
    Nat.mul_comm (2 ^ k) a]

/-! ### Claims about input validation and failure atomicity -/

/-- Claim C9: for every count < 0 or count > 64, both ReadBits and WriteBits
return ErrCountRange with 0 bits transferred, leave all observable
reader/writer state unchanged, and do not touch the source or sink. -/
theorem claim_c9 (count : Int) (h : count < 0 ∨ count > 64) :
    (∀ r : Reader, r.readBits count = (0, some .countRange, none, r)) ∧
    (∀ (w : Writer) (v : Nat), w.writeBits count v = (0, some .countRange, w)) := by
  constructor
  · intro r; simp only [Reader.readBits, if_pos h]
  · intro w v; simp only [Writer.writeBits, if_pos h]

/-- Witness for C9 at count = 65 (reader) and count = -1 (writer). -/
theorem claim_c9_witness :
    (NewReader false [1, 2]).readBits 65 = (0, some .countRange, none, NewReader false [1, 2]) ∧
    (NewWriter true).writeBits (-1) 5 = (0, some .countRange, NewWriter true) :=
  ⟨(claim_c9 65 (by norm_num)).1 _, (claim_c9 (-1) (by norm_num)).2 _ 5⟩

/-- Claim C10: ReadBits(0, v) always returns (0, success) without touching
the source — even an exhausted or failing one — and leaves the register and
valid count unchanged (the value stored into `*v` is 0). -/
theorem claim_c10 (r : Reader) (h : r.nb ≤ 64) :
    r.readBits 0 = (0, none, some 0, r) := by
  simp only [Reader.readBits, and_mask_eq h]
  norm_num
  rw [Nat.shiftRight_eq_div_pow]
  exact Nat.div_eq_of_lt (Nat.mod_lt _ (Nat.two_pow_pos _))

/-- Witness for C10 on a reader whose source would fail if consulted. -/
theorem claim_c10_witness :
    Reader.readBits ⟨⟨[], true, 7⟩, false, 0xAB, 4⟩ 0 = (0, none, some 0, ⟨⟨[], true, 7⟩, false, 0xAB, 4⟩) :=
  claim_c10 _ (by norm_num)

/-- Claim C4: a transport failure of the refill read makes ReadBits return
(0, that error) with the reader — register, valid count, and source —
exactly as before the call, and no value stored. -/
theorem claim_c4 (r : Reader) (count : Int) (hf : r.src.failNow = true)
    (h0 : 0 ≤ count) (h64 : count ≤ 64) (hn : r.nb < count.toNat) :
    r.readBits count = (0, some (.transport r.src.failCode), none, r) := by
  have hrf : r.src.refill = (.fail r.src.failCode, r.src) := by
    simp [Src.refill, hf]
  simp only [Reader.readBits, hrf]
  rw [if_neg (by omega), if_neg (by omega)]

/-- Witness for C4: buffered reader over a failing source, request 8 bits. -/
theorem claim_c4_witness :
    Reader.readBits ⟨⟨[1, 2], true, 42⟩, true, 5, 3⟩ 8
      = (0, some (.transport 42), none, ⟨⟨[1, 2], true, 42⟩, true, 5, 3⟩) :=
  claim_c4 _ 8 rfl (by norm_num) (by norm_num) (by norm_num)

/-- Claim C3: if the sink fails on the 8-byte emit — triggered inside
WriteBits when the register reaches 64 bits, or inside Flush — the failed
call returns that error and leaves the writer (register, valid count, and
the emitted byte stream) exactly as before the call. -/
theorem claim_c3 (w : Writer) (hf : w.sink.failNow = true) :
    (∀ (count : Int) (v : Nat), 0 ≤ count → count ≤ 64 → w.nb ≤ 64 →
      64 ≤ w.nb + count.toNat →
      w.writeBits count v = (w.sink.failRet, some (.transport w.sink.failCode), w)) ∧
    (w.nb ≠ 0 → w.flush = (some (.transport w.sink.failCode), w)) := by
  have hw : ∀ bs, w.sink.write bs = (w.sink.failRet, some (.transport w.sink.failCode), w.sink) := by
    intro bs; simp [Sink.write, hf]
  constructor
  · intro count v h0 h64 hnb hfull
    have h1 : min (64 - w.nb) count.toNat = 64 - w.nb := by omega
    simp only [Writer.writeBits, h1, hw]
    rw [if_neg (by omega), if_pos (by omega : w.nb + (64 - w.nb) = 64)]
  · intro hnz
    simp only [Writer.flush, hw]
    rw [if_pos hnz]

/-- Witness for C3: a nearly full writer over a failing sink, for both the
WriteBits emit and the Flush emit. -/
theorem claim_c3_witness :
    Writer.writeBits ⟨⟨[9], true, 3, 2⟩, false, 5, 60⟩ 8 1
      = (2, some (.transport 3), ⟨⟨[9], true, 3, 2⟩, false, 5, 60⟩) ∧
    Writer.flush ⟨⟨[9], true, 3, 2⟩, false, 5, 60⟩
      = (some (.transport 3), ⟨⟨[9], true, 3, 2⟩, false, 5, 60⟩) :=
  ⟨(claim_c3 _ rfl).1 8 1 (by norm_num) (by norm_num) (by norm_num) (by decide),
   (claim_c3 _ rfl).2 (by norm_num)⟩

/-- Claim C2: for every reader state and count in 0..64, ReadBits returns
(n, status) with: success iff n = count; end-of-stream only with n < count;
any transport error with n = 0; never a count-range error; and, absent a
transport error, end-of-stream iff n < count. -/
theorem claim_c2 (r : Reader) (count : Int) (h0 : 0 ≤ count) (h64 : count ≤ 64) :
    ((r.readBits count).2.1 = none ↔ (r.readBits count).1 = count.toNat) ∧
    ((r.readBits count).2.1 = some .eof → (r.readBits count).1 < count.toNat) ∧
    (∀ c, (r.readBits count).2.1 = some (.transport c) → (r.readBits count).1 = 0) ∧
    (r.readBits count).2.1 ≠ some .countRange ∧
    ((∀ c, (r.readBits count).2.1 ≠ some (.transport c)) →
      ((r.readBits count).2.1 = some .eof ↔ (r.readBits count).1 < count.toNat)) := by
  simp only [Reader.readBits]
  rw [if_neg (by omega)]
  by_cases hfast : count.toNat ≤ r.nb
  · rw [if_pos hfast]
    simp
  · rw [if_neg hfast]
    rcases hr : r.src.refill with ⟨bs | code, s'⟩
    · simp only [hr]
      by_cases hc : 8 * bs.length < count.toNat - r.nb
      · simp only [if_pos hc]
        simp
        omega
      · simp only [if_neg hc]
        simp
        omega
    · simp only [hr]
      simp
      omega

/-- Witness for C2 on a fresh reader over one byte with count = 4. -/
theorem claim_c2_witness :
    (((NewReader false [0xA9]).readBits 4).2.1 = none ↔ ((NewReader false [0xA9]).readBits 4).1 = Int.toNat 4) ∧
    (((NewReader false [0xA9]).readBits 4).2.1 = some .eof → ((NewReader false [0xA9]).readBits 4).1 < Int.toNat 4) ∧
    (∀ c, ((NewReader false [0xA9]).readBits 4).2.1 = some (.transport c) → ((NewReader false [0xA9]).readBits 4).1 = 0) ∧
    ((NewReader false [0xA9]).readBits 4).2.1 ≠ some .countRange ∧
    ((∀ c, ((NewReader false [0xA9]).readBits 4).2.1 ≠ some (.transport c)) →
      (((NewReader false [0xA9]).readBits 4).2.1 = some .eof ↔ ((NewReader false [0xA9]).readBits 4).1 < Int.toNat 4)) :=
  claim_c2 (NewReader false [0xA9]) 4 (by norm_num) (by norm_num)

/-! ### Facts about the bit-reversal table and the bit-order transform -/

theorem bitReverse_length : bitReverse.length = 256 := by decide

theorem flipByte_lt (b : Nat) : flipByte b < 256 := by
  by_cases h : b < 256
  · revert h; revert b; decide
  · unfold flipByte
    rw [List.getD_eq_default _ _ (by rw [bitReverse_length]; omega)]
    norm_num

theorem flipByte_flipByte {b : Nat} (h : b < 256) : flipByte (flipByte b) = b := by
  revert h; revert b; decide

theorem flipByte_zero : flipByte 0 = 0 := rfl

theorem applyFlip_nil (f : Bool) : applyFlip f [] = [] := by
  cases f <;> simp [applyFlip, flipBits, noFlip]

theorem applyFlip_false (bs : List Nat) : applyFlip false bs = bs := rfl

theorem applyFlip_true (bs : List Nat) : applyFlip true bs = flipBits bs := rfl

theorem applyFlip_length (f : Bool) (bs : List Nat) : (applyFlip f bs).length = bs.length := by
  cases f <;> simp [applyFlip, flipBits, noFlip]

theorem applyFlip_append (f : Bool) (xs ys : List Nat) :
    applyFlip f (xs ++ ys) = applyFlip f xs ++ applyFlip f ys := by
  cases f <;> simp [applyFlip, flipBits, noFlip]

theorem applyFlip_replicate_zero (f : Bool) (k : Nat) :
    applyFlip f (List.replicate k 0) = List.replicate k 0 := by
  cases f <;> simp [applyFlip, flipBits, noFlip, flipByte_zero]

theorem applyFlip_applyFlip (f : Bool) {bs : List Nat} (hb : ∀ b ∈ bs, b < 256) :
    applyFlip f (applyFlip f bs) = bs := by
  cases f
  · simp [applyFlip, noFlip]
  · simp only [applyFlip, flipBits, if_true, List.map_map]
    have hcongr : ∀ a ∈ bs, (flipByte ∘ flipByte) a = id a := fun a ha =>
      flipByte_flipByte (hb a ha)
    rw [List.map_congr_left hcongr, List.map_id]

theorem applyFlip_mem_lt (f : Bool) {bs : List Nat} (hb : ∀ b ∈ bs, b < 256) :
    ∀ b ∈ applyFlip f bs, b < 256 := by
  cases f
  · simpa [applyFlip, noFlip] using hb
  · intro b hbmem
    simp only [applyFlip, flipBits, if_true, List.mem_map] at hbmem
    obtain ⟨a, -, rfl⟩ := hbmem
    exact flipByte_lt a

theorem applyFlip_take (f : Bool) (bs : List Nat) (n : Nat) :
    (applyFlip f bs).take n = applyFlip f (bs.take n) := by
  cases f <;> simp [applyFlip, flipBits, noFlip, List.map_take]

theorem applyFlip_drop (f : Bool) (bs : List Nat) (n : Nat) :
    (applyFlip f bs).drop n = applyFlip f (bs.drop n) := by
  cases f <;> simp [applyFlip, flipBits, noFlip, List.map_drop]

/-! ### Facts about the big-endian folds -/

theorem beVal_cons (b : Nat) (bs : List Nat) :
    beVal (b :: bs) = bs.foldl (fun a b => a * 256 + b) b := by
  simp [beVal]

theorem foldl_mul_add_lt :
    ∀ (bs : List Nat) (a k : Nat), (∀ b ∈ bs, b < 256) → a < 2 ^ k →
      bs.foldl (fun a b => a * 256 + b) a < 2 ^ (k + 8 * bs.length)
  | [], a, k, _, ha => by simpa using ha
  | b :: bs, a, k, hb, ha => by
    have hstep : a * 256 + b < 2 ^ (k + 8) := by
      have hb' : b < 256 := hb b (List.mem_cons_self b bs)
      have h2 : (a + 1) * 256 ≤ 2 ^ k * 256 := Nat.mul_le_mul_right _ ha
      have h3 : (2 : Nat) ^ k * 256 = 2 ^ (k + 8) := by rw [Nat.pow_add]
      omega
    have ih := foldl_mul_add_lt bs (a * 256 + b) (k + 8)
      (fun x hx => hb x (List.mem_cons_of_mem _ hx)) hstep
    have hexp : k + 8 + 8 * bs.length = k + 8 * (b :: bs).length := by
      simp [List.length_cons]; ring
    rw [List.foldl_cons, ← hexp]
    exact ih

theorem beVal_lt {bs : List Nat} (hb : ∀ b ∈ bs, b < 256) :
    beVal bs < 2 ^ (8 * bs.length) := by
  have := foldl_mul_add_lt bs 0 0 hb (by norm_num)
  simpa [beVal] using this

theorem foldl_or_eq_mul_add :
    ∀ (bs : List Nat) (a : Nat), (∀ b ∈ bs, b < 256) → bs.length ≤ 8 →
      a < 2 ^ (64 - 8 * bs.length) →
      bs.foldl (fun a b => ((a <<< 8) ||| b) % 2 ^ 64) a
        = bs.foldl (fun a b => a * 256 + b) a
  | [], _, _, _, _ => rfl
  | b :: bs, a, hb, hlen, ha => by
    have hb' : b < 256 := hb b (List.mem_cons_self b bs)
    have hlen1 : bs.length + 1 ≤ 8 := by simpa using hlen
    have ha' : a < 2 ^ (64 - 8 * (bs.length + 1)) := by
      simpa [List.length_cons] using ha
    have h28 : b < 2 ^ 8 := by norm_num; omega
    have hstep : (a <<< 8) ||| b = a * 256 + b := by
      rw [shiftLeft_or_eq_add h28]; norm_num
    have hee : (64 - 8 * (bs.length + 1)) + 8 = 64 - 8 * bs.length := by omega
    have h3 : (2 : Nat) ^ (64 - 8 * (bs.length + 1)) * 2 ^ 8 = 2 ^ (64 - 8 * bs.length) := by
      rw [← Nat.pow_add, hee]
    have hlt : a * 256 + b < 2 ^ (64 - 8 * bs.length) := by
      have h2 : (a + 1) * 2 ^ 8 ≤ 2 ^ (64 - 8 * (bs.length + 1)) * 2 ^ 8 :=
        Nat.mul_le_mul_right _ ha'
      norm_num at h2
      omega
    have hmod : (a * 256 + b) % 2 ^ 64 = a * 256 + b := by
      apply Nat.mod_eq_of_lt
      have hle : (2 : Nat) ^ (64 - 8 * bs.length) ≤ 2 ^ 64 :=
        Nat.pow_le_pow_right (by norm_num) (by omega)
      omega
    have ih := foldl_or_eq_mul_add bs (a * 256 + b)
      (fun x hx => hb x (List.mem_cons_of_mem _ hx)) (by omega) hlt
    simp only [List.foldl_cons]
    rw [hstep, hmod]
    exact ih

theorem beUint64_eq_beVal {bs : List Nat} (hb : ∀ b ∈ bs, b < 256) (hlen : bs.length ≤ 8) :
    beUint64 bs = beVal bs := by
  unfold beUint64 beVal
  exact foldl_or_eq_mul_add bs 0 hb hlen (Nat.two_pow_pos _)

theorem beUint64_lt (bs : List Nat) : beUint64 bs < 2 ^ 64 := by
  rcases bs.eq_nil_or_concat with rfl | ⟨ys, y, rfl⟩
  · exact Nat.two_pow_pos _
  · unfold beUint64
    rw [List.concat_eq_append, List.foldl_append]
    exact Nat.mod_lt _ (by norm_num)

theorem beUint64_replicate_zero_append (k : Nat) (bs : List Nat) :
    beUint64 (List.replicate k 0 ++ bs) = beUint64 bs := by
  unfold beUint64
  rw [List.foldl_append]
  congr 1
  induction k with
  | zero => rfl
  | succ n ih => simpa [List.replicate_succ] using ih

/-! ### Evaluation lemmas for `Reader.readBits` -/

/-- Fast path of ReadBits: the request is served from the register. -/
theorem readBits_fast (r : Reader) (count : Int) (h0 : 0 ≤ count) (h64 : count ≤ 64)
    (hfast : count.toNat ≤ r.nb) (hnb64 : r.nb ≤ 64) :
    r.readBits count = (count.toNat, none,
      some ((r.buf % 2 ^ r.nb) >>> (r.nb - count.toNat)),
      { r with nb := r.nb - count.toNat }) := by
  simp only [Reader.readBits, and_mask_eq hnb64]
  rw [if_neg (by omega), if_pos hfast]

/-- Refill path of ReadBits on a non-failing source: one 8-byte request is
made, the register is reloaded big-endian (bit-order transform applied, with
zero padding on a short read), and the request is served, clamped at the
fresh bit supply. -/
theorem readBits_refill (r : Reader) (count : Int) (h0 : 0 ≤ count) (h64 : count ≤ 64)
    (hslow : r.nb < count.toNat) (hok : r.src.failNow = false) (hnb64 : r.nb ≤ 64) :
    ∀ bs nr newbuf nleft,
      bs = r.src.data.take 8 → nr = bs.length →
      newbuf = beUint64 (applyFlip r.flip (List.replicate (8 - nr) 0 ++ bs)) →
      nleft = min (8 * nr) (count.toNat - r.nb) →
      r.readBits count = (r.nb + nleft,
        (if 8 * nr < count.toNat - r.nb then some .eof else none),
        some ((((r.buf % 2 ^ r.nb) <<< nleft) ||| (newbuf >>> (8 * nr - nleft))) % 2 ^ 64),
        ⟨⟨r.src.data.drop 8, false, r.src.failCode⟩, r.flip, newbuf, 8 * nr - nleft⟩) := by
  intro bs nr newbuf nleft hbs hnr hnew hnl
  subst hbs hnr hnew hnl
  have hrefill : r.src.refill
      = (.ok (r.src.data.take 8), ⟨r.src.data.drop 8, false, r.src.failCode⟩) := by
    simp [Src.refill, hok]
  simp only [Reader.readBits, and_mask_eq hnb64, hrefill]
  rw [if_neg (by omega), if_neg (by omega)]
  have hmin : ∀ a b : Nat, (if a < b then a else b) = min a b := by
    intro a b; rw [Nat.min_def]; split <;> split <;> omega
  simp only [hmin]

/-! ### Claim C5: the 7-byte short-read scenario -/

/-- Counterexample to C5 as stated: after `(56, EOF)` from a 7-byte source,
a second ReadBits of width 0 — which is within the claimed range 0..64 —
returns success, not EndOfStream. -/
theorem claim_c5_counterexample :
    ((((NewReader false [1, 2, 3, 4, 5, 6, 7]).readBits 64).2.2.2).readBits 0).2.1 = none ∧
    ((((NewReader false [1, 2, 3, 4, 5, 6, 7]).readBits 64).2.2.2).readBits 0).2.1 ≠ some .eof := by
  constructor <;> decide

/-- Claim C5 (amended: the second call reports EndOfStream for widths 1..64;
a width-0 request instead returns 0 bits with success): a fresh MSB-first
reader over exactly 7 bytes returns (56, EOF) from ReadBits(64) with the
value equal to the big-endian value of the 7 bytes (which fits in the low 56
bits), and a second ReadBits of any width in 1..64 returns (0, EOF). -/
theorem claim_c5 (B : List Nat) (hlen : B.length = 7) (hb : ∀ b ∈ B, b < 256)
    (c : Int) (hc1 : 1 ≤ c) (hc64 : c ≤ 64) :
    (NewReader false B).readBits 64
      = (56, some .eof, some (beVal B), ⟨⟨[], false, 0⟩, false, beVal B, 0⟩) ∧
    beVal B % 2 ^ 56 = beVal B ∧
    ((NewReader false B).readBits 64).2.2.2.readBits c
      = (0, some .eof, some 0, ⟨⟨[], false, 0⟩, false, 0, 0⟩) := by
  have hlow : beVal B < 2 ^ 56 := by
    have h := beVal_lt hb
    rw [hlen] at h
    norm_num at h
    exact h
  have htake : B.take 8 = B := List.take_of_length_le (by omega)
  have hdrop : B.drop 8 = [] := List.drop_eq_nil_of_le (by omega)
  have hnew : beVal B
      = beUint64 (applyFlip (Reader.flip ⟨⟨B, false, 0⟩, false, 0, 0⟩)
          (List.replicate (8 - 7) 0 ++ B)) := by
    show beVal B = beUint64 (applyFlip false (List.replicate (8 - 7) 0 ++ B))
    rw [applyFlip_false, beUint64_replicate_zero_append, beUint64_eq_beVal hb (by omega)]
  have hfirst := readBits_refill ⟨⟨B, false, 0⟩, false, 0, 0⟩ 64 (by norm_num) (by norm_num)
    (by norm_num) rfl (by norm_num) B 7 (beVal B) 56
    htake.symm hlen.symm hnew rfl
  rw [hdrop] at hfirst
  norm_num [Nat.zero_shiftLeft, Nat.zero_or] at hfirst
  rw [Nat.mod_eq_of_lt (by
    have h2 : (2:Nat) ^ 56 < 2 ^ 64 := by norm_num
    omega)] at hfirst
  simp only [NewReader]
  refine ⟨hfirst, Nat.mod_eq_of_lt hlow, ?_⟩
  rw [hfirst]
  have hsecond := readBits_refill ⟨⟨[], false, 0⟩, false, beVal B, 0⟩ c (by omega) hc64
    (show (0 : Nat) < c.toNat by omega) rfl (show (0 : Nat) ≤ 64 by norm_num)
    [] 0 0 0 rfl rfl rfl
    (show (0 : Nat) = 8 * 0 ⊓ (c.toNat - 0) by simp)
  rw [if_pos (show 8 * 0 < c.toNat - Reader.nb ⟨⟨[], false, 0⟩, false, beVal B, 0⟩ by
    show 8 * 0 < c.toNat - 0
    omega)] at hsecond
  norm_num [Nat.mod_one] at hsecond
  exact hsecond

/-- Witness for C5 at the concrete 7-byte source 01 02 03 04 05 06 07 and
second width 8. -/
theorem claim_c5_witness :
    (NewReader false [1, 2, 3, 4, 5, 6, 7]).readBits 64
      = (56, some .eof, some (beVal [1, 2, 3, 4, 5, 6, 7]),
         ⟨⟨[], false, 0⟩, false, beVal [1, 2, 3, 4, 5, 6, 7], 0⟩) ∧
    beVal [1, 2, 3, 4, 5, 6, 7] % 2 ^ 56 = beVal [1, 2, 3, 4, 5, 6, 7] ∧
    ((NewReader false [1, 2, 3, 4, 5, 6, 7]).readBits 64).2.2.2.readBits 8
      = (0, some .eof, some 0, ⟨⟨[], false, 0⟩, false, 0, 0⟩) :=
  claim_c5 [1, 2, 3, 4, 5, 6, 7] rfl (by decide) 8 (by norm_num) (by norm_num)

/-! ### Claim C8: the writer invariant valid < 64 -/

theorem writeBits_nb_lt (w : Writer) (count : Int) (v : Nat) (h : w.nb < 64) :
    ((w.writeBits count v).2.2).nb < 64 := by
  by_cases hc : count < 0 ∨ count > 64
  · rw [Writer.writeBits, if_pos hc]
    exact h
  · have hcount : count.toNat ≤ 64 := by omega
    rw [Writer.writeBits, if_neg hc]
    by_cases hfull : w.nb + min (64 - w.nb) count.toNat = 64
    · rw [if_pos hfull]
      rcases hw : w.sink.write (applyFlip w.flip
          (beBytes8 ((w.buf <<< min (64 - w.nb) count.toNat) % 2 ^ 64 |||
            (v % 2 ^ 64) >>> (count.toNat - min (64 - w.nb) count.toNat)))) with ⟨nw, e, s'⟩
      cases e with
      | none => simp only [hw]; omega
      | some err => simp only [hw]; exact h
    · rw [if_neg hfull]
      dsimp only
      have hmin : min (64 - w.nb) count.toNat ≤ 64 - w.nb := Nat.min_le_left _ _
      omega

theorem flush_nb_lt (w : Writer) (h : w.nb < 64) : (w.flush.2).nb < 64 := by
  rw [Writer.flush]
  by_cases hz : w.nb ≠ 0
  · rw [if_pos hz]
    rcases hw : w.sink.write (applyFlip w.flip
        ((beBytes8 ((w.buf <<< w.padding) % 2 ^ 64)).drop (8 - (w.nb + 7) / 8))) with ⟨nw, e, s'⟩
    cases e with
    | none => simp only [hw]; omega
    | some err => simp only [hw]; exact h
  · rw [if_neg hz]
    exact h

theorem writeLoop_nb_lt (fuel : Nat) :
    ∀ (w : Writer) (data : List Nat) (nbits : Nat), w.nb < 64 →
      ((Writer.writeLoop fuel w data nbits).2.2).nb < 64 := by
  induction fuel with
  | zero =>
    intro w data nbits h
    rw [Writer.writeLoop]
    by_cases h8 : 8 < data.length
    · rw [if_pos h8]; exact h
    · rw [if_neg h8]
      by_cases h0 : 0 < data.length
      · rw [if_pos h0]
        rcases hw : w.writeBits (8 * data.length : Nat) (beUint64 data) with ⟨nw, e, w'⟩
        have h' := writeBits_nb_lt w (8 * data.length : Nat) (beUint64 data) h
        rw [hw] at h'
        cases e with
        | none => simpa [hw] using h'
        | some err => simpa [hw] using h'
      · rw [if_neg h0]; exact h
  | succ n ih =>
    intro w data nbits h
    rw [Writer.writeLoop]
    by_cases h8 : 8 < data.length
    · rw [if_pos h8]
      rcases hw : w.writeBits 64 (beUint64 (data.take 8)) with ⟨nw, e, w'⟩
      have h' := writeBits_nb_lt w 64 (beUint64 (data.take 8)) h
      rw [hw] at h'
      cases e with
      | none => simpa [hw] using ih w' (data.drop 8) (nbits + nw) h'
      | some err => simpa [hw] using h'
    · rw [if_neg h8]
      by_cases h0 : 0 < data.length
      · rw [if_pos h0]
        rcases hw : w.writeBits (8 * data.length : Nat) (beUint64 data) with ⟨nw, e, w'⟩
        have h' := writeBits_nb_lt w (8 * data.length : Nat) (beUint64 data) h
        rw [hw] at h'
        cases e with
        | none => simpa [hw] using h'
        | some err => simpa [hw] using h'
      · rw [if_neg h0]; exact h

/-- Claim C8: the writer invariant 0 ≤ valid < 64 holds in every reachable
state: a fresh writer has valid = 0, and WriteBits (any count), Flush, and
the byte adapter Write all preserve valid < 64 — a register that reaches 64
bits is drained within the same call. -/
theorem claim_c8 (f : Bool) :
    (NewWriter f).nb = 0 ∧
    (∀ (w : Writer) (count : Int) (v : Nat), w.nb < 64 → ((w.writeBits count v).2.2).nb < 64) ∧
    (∀ w : Writer, w.nb < 64 → (w.flush.2).nb < 64) ∧
    (∀ (w : Writer) (data : List Nat), w.nb < 64 → ((w.write data).2.2).nb < 64) :=
  ⟨rfl, writeBits_nb_lt, flush_nb_lt,
   fun w data h => writeLoop_nb_lt data.length w data 0 h⟩

/-- Witness for C8 at concrete writers: a register filled to exactly 64 bits
by WriteBits, a Flush of a nearly full register, and an adapter Write of 10
bytes. -/
theorem claim_c8_witness :
    (NewWriter false).nb = 0 ∧
    ((Writer.writeBits ⟨okSink [], false, 0, 63⟩ 64 0xFFFF).2.2).nb < 64 ∧
    ((Writer.flush ⟨okSink [], true, 7, 63⟩).2).nb < 64 ∧
    ((Writer.write ⟨okSink [], false, 0, 5⟩ [1, 2, 3, 4, 5, 6, 7, 8, 9, 10]).2.2).nb < 64 :=
  ⟨(claim_c8 false).1, (claim_c8 false).2.1 _ 64 0xFFFF (by norm_num),
   (claim_c8 false).2.2.1 _ (by norm_num), (claim_c8 false).2.2.2 _ _ (by norm_num)⟩

/-- Claim C6: the literal scenario.  Writing the 4-bit integers 0..15 with
widths 1,1,2,2,3,3,3,3,4,...,4 on a fresh MSB-first writer and flushing
emits exactly 6E 5D E2 6A F3 7B plus the final zero-padded byte (C0), and
reading the same widths back under MSB-first yields 0,1,2,...,15. -/
theorem claim_c6 :
    ((writeBitsSeq (NewWriter false)
        [(1, 0), (1, 1), (2, 2), (2, 3), (3, 4), (3, 5), (3, 6), (3, 7),
         (4, 8), (4, 9), (4, 10), (4, 11), (4, 12), (4, 13), (4, 14), (4, 15)]).flush).2.sink.written
      = [0x6E, 0x5D, 0xE2, 0x6A, 0xF3, 0x7B, 0xC0] ∧
    (readValsSeq (NewReader false [0x6E, 0x5D, 0xE2, 0x6A, 0xF3, 0x7B, 0xC0])
        [1, 1, 2, 2, 3, 3, 3, 3, 4, 4, 4, 4, 4, 4, 4, 4]).1
      = [0, 1, 2, 3, 4, 5, 6, 7, 8, 9, 10, 11, 12, 13, 14, 15] := by
  constructor <;> decide

/-! ### Claim C7: bounded refill and no discarded bits -/

/-- The refilled register value is bounded by the fresh bit supply. -/
theorem newbuf_lt (f : Bool) (bs : List Nat) (hb : ∀ b ∈ bs, b < 256) (hlen : bs.length ≤ 8) :
    beUint64 (applyFlip f (List.replicate (8 - bs.length) 0 ++ bs)) < 2 ^ (8 * bs.length) := by
  rw [applyFlip_append, applyFlip_replicate_zero, beUint64_replicate_zero_append,
    beUint64_eq_beVal (applyFlip_mem_lt f hb) (by rw [applyFlip_length]; exact hlen)]
  have h := beVal_lt (applyFlip_mem_lt f hb)
  rw [applyFlip_length] at h
  exact h

/-- Claim C7: ReadBits is frame-bounded on the source: when count ≤ valid it
performs no source read at all; otherwise it performs exactly one refill
request of 8 bytes (the source advances by exactly one 8-byte request) and
every previously buffered bit is delivered to the caller at the top of the
returned value — shifting the delivered value right by the number of freshly
consumed bits recovers exactly the old buffered content. -/
theorem claim_c7 (r : Reader) (count : Int) (h0 : 0 ≤ count) (h64 : count ≤ 64)
    (hnb : r.nb ≤ 64) (hbytes : ∀ b ∈ r.src.data, b < 256) :
    (count.toNat ≤ r.nb → ((r.readBits count).2.2.2).src = r.src) ∧
    (r.nb < count.toNat → r.src.failNow = false →
      ((r.readBits count).2.2.2).src.data = r.src.data.drop 8 ∧
      ∃ x, (r.readBits count).2.2.1 = some x ∧
        x >>> ((r.readBits count).1 - r.nb) = r.buf % 2 ^ r.nb) := by
  constructor
  · intro hfast
    rw [readBits_fast r count h0 h64 hfast hnb]
  · intro hslow hok
    have hlem := readBits_refill r count h0 h64 hslow hok hnb _ _ _ _ rfl rfl rfl rfl
    rw [hlem]
    dsimp only
    refine ⟨rfl, _, rfl, ?_⟩
    have hmlen : (r.src.data.take 8).length ≤ 8 := by
      rw [List.length_take]; omega
    have hbs : ∀ b ∈ r.src.data.take 8, b < 256 := fun b hbm =>
      hbytes b (List.mem_of_mem_take hbm)
    have hnew := newbuf_lt r.flip (r.src.data.take 8) hbs hmlen
    set m := (r.src.data.take 8).length with hm
    set nleft := min (8 * m) (count.toNat - r.nb) with hnl
    set newbuf := beUint64 (applyFlip r.flip (List.replicate (8 - m) 0 ++ r.src.data.take 8)) with hnbuf
    have hcancel : r.nb + nleft - r.nb = nleft := by omega
    rw [hcancel]
    have hout : r.buf % 2 ^ r.nb < 2 ^ r.nb := Nat.mod_lt _ (Nat.two_pow_pos _)
    have hnlle : nleft ≤ 8 * m := Nat.min_le_left _ _
    have hnble : r.nb + nleft ≤ 64 := by
      have : nleft ≤ count.toNat - r.nb := Nat.min_le_right _ _
      omega
    have hsplit : (2 : Nat) ^ (8 * m) = 2 ^ (8 * m - nleft) * 2 ^ nleft := by
      rw [← Nat.pow_add]
      congr 1
      omega
    have hB : newbuf >>> (8 * m - nleft) < 2 ^ nleft := by
      rw [Nat.shiftRight_eq_div_pow]
      rw [Nat.div_lt_iff_lt_mul (Nat.two_pow_pos _)]
      calc newbuf < 2 ^ (8 * m) := hnew
        _ = 2 ^ nleft * 2 ^ (8 * m - nleft) := by rw [hsplit, Nat.mul_comm]
    rw [shiftLeft_or_eq_add hB]
    have hsum : (r.buf % 2 ^ r.nb) * 2 ^ nleft + newbuf >>> (8 * m - nleft) < 2 ^ 64 := by
      have h1 : (r.buf % 2 ^ r.nb) * 2 ^ nleft + newbuf >>> (8 * m - nleft)
          < 2 ^ (r.nb + nleft) :=
        calc (r.buf % 2 ^ r.nb) * 2 ^ nleft + newbuf >>> (8 * m - nleft)
            < (r.buf % 2 ^ r.nb) * 2 ^ nleft + 2 ^ nleft := by omega
          _ = ((r.buf % 2 ^ r.nb) + 1) * 2 ^ nleft := by ring
          _ ≤ 2 ^ r.nb * 2 ^ nleft := Nat.mul_le_mul_right _ hout
          _ = 2 ^ (r.nb + nleft) := by rw [← Nat.pow_add]
      have h6 : (2 : Nat) ^ (r.nb + nleft) ≤ 2 ^ 64 :=
        Nat.pow_le_pow_right (by norm_num) hnble
      omega
    rw [Nat.mod_eq_of_lt hsum]
    rw [Nat.shiftRight_eq_div_pow, Nat.mul_comm (r.buf % 2 ^ r.nb) (2 ^ nleft),
      Nat.mul_add_div (Nat.two_pow_pos _),
      Nat.div_eq_of_lt (show newbuf >>> (8 * m - nleft) < 2 ^ nleft from hB)]
    omega

/-- Witness for C7: the fast path on a buffered reader, and the refill path
on a fresh reader over 9 bytes. -/
theorem claim_c7_witness :
    ((Reader.readBits ⟨⟨[5, 6], false, 0⟩, false, 0xAB, 8⟩ 4).2.2.2).src
        = Src.mk [5, 6] false 0 ∧
    (((NewReader false [1, 2, 3, 4, 5, 6, 7, 8, 9]).readBits 16).2.2.2).src.data
        = List.drop 8 [1, 2, 3, 4, 5, 6, 7, 8, 9] ∧
    ∃ x, ((NewReader false [1, 2, 3, 4, 5, 6, 7, 8, 9]).readBits 16).2.2.1 = some x ∧
      x >>> (((NewReader false [1, 2, 3, 4, 5, 6, 7, 8, 9]).readBits 16).1 - 0)
        = 0 % 2 ^ (0 : Nat) :=
  ⟨(claim_c7 ⟨⟨[5, 6], false, 0⟩, false, 0xAB, 8⟩ 4 (by norm_num) (by norm_num)
      (by norm_num) (by decide)).1 (by decide),
   (claim_c7 (NewReader false [1, 2, 3, 4, 5, 6, 7, 8, 9]) 16 (by norm_num) (by norm_num)
      (by decide) (by decide)).2 (by decide) rfl⟩

/-! ### Big-endian packing and unpacking of whole byte lists -/

/-- The trailing `c.length` bytes of `PutUint64 x` are exactly `c` whenever
the low bits of `x` carry the base-256 value of `c`. -/
theorem bytesDrop (x : Nat) (c : List Nat) (hlen : c.length ≤ 8) (hb : ∀ b ∈ c, b < 256)
    (hmod : x % 2 ^ (8 * c.length) = beVal c) :
    (beBytes8 x).drop (8 - c.length) = c := by
  rcases c with _|⟨a0,_|⟨a1,_|⟨a2,_|⟨a3,_|⟨a4,_|⟨a5,_|⟨a6,_|⟨a7,_|⟨a8,c⟩⟩⟩⟩⟩⟩⟩⟩⟩
  · rfl
  · simp at hb
    have hmod' : x % 2 ^ 8 = (0 * 256 + a0) := hmod
    show [x % 256] = [a0]
    simp only [Nat.shiftRight_eq_div_pow, List.cons.injEq, and_true]
    omega
  · simp at hb
    have hmod' : x % 2 ^ 16 = ((0 * 256 + a0) * 256 + a1) := hmod
    show [(x >>> 8) % 256, x % 256] = [a0, a1]
    simp only [Nat.shiftRight_eq_div_pow, List.cons.injEq, and_true]
    omega
  · simp at hb
    have hmod' : x % 2 ^ 24 = (((0 * 256 + a0) * 256 + a1) * 256 + a2) := hmod
    show [(x >>> 16) % 256, (x >>> 8) % 256, x % 256] = [a0, a1, a2]
    simp only [Nat.shiftRight_eq_div_pow, List.cons.injEq, and_true]
    omega
  · simp at hb
    have hmod' : x % 2 ^ 32 = ((((0 * 256 + a0) * 256 + a1) * 256 + a2) * 256 + a3) := hmod
    show [(x >>> 24) % 256, (x >>> 16) % 256, (x >>> 8) % 256, x % 256] = [a0, a1, a2, a3]
    simp only [Nat.shiftRight_eq_div_pow, List.cons.injEq, and_true]
    omega
  · simp at hb
    have hmod' : x % 2 ^ 40 = (((((0 * 256 + a0) * 256 + a1) * 256 + a2) * 256 + a3) * 256 + a4) := hmod
    show [(x >>> 32) % 256, (x >>> 24) % 256, (x >>> 16) % 256, (x >>> 8) % 256, x % 256] = [a0, a1, a2, a3, a4]
    simp only [Nat.shiftRight_eq_div_pow, List.cons.injEq, and_true]
    omega
  · simp at hb
    have hmod' : x % 2 ^ 48 = ((((((0 * 256 + a0) * 256 + a1) * 256 + a2) * 256 + a3) * 256 + a4) * 256 + a5) := hmod
    show [(x >>> 40) % 256, (x >>> 32) % 256, (x >>> 24) % 256, (x >>> 16) % 256, (x >>> 8) % 256, x % 256] = [a0, a1, a2, a3, a4, a5]
    simp only [Nat.shiftRight_eq_div_pow, List.cons.injEq, and_true]
    omega
  · simp at hb
    have hmod' : x % 2 ^ 56 = (((((((0 * 256 + a0) * 256 + a1) * 256 + a2) * 256 + a3) * 256 + a4) * 256 + a5) * 256 + a6) := hmod
    show [(x >>> 48) % 256, (x >>> 40) % 256, (x >>> 32) % 256, (x >>> 24) % 256, (x >>> 16) % 256, (x >>> 8) % 256, x % 256] = [a0, a1, a2, a3, a4, a5, a6]
    simp only [Nat.shiftRight_eq_div_pow, List.cons.injEq, and_true]
    omega
  · simp at hb
    have hmod' : x % 2 ^ 64 = ((((((((0 * 256 + a0) * 256 + a1) * 256 + a2) * 256 + a3) * 256 + a4) * 256 + a5) * 256 + a6) * 256 + a7) := hmod
    show [(x >>> 56) % 256, (x >>> 48) % 256, (x >>> 40) % 256, (x >>> 32) % 256, (x >>> 24) % 256, (x >>> 16) % 256, (x >>> 8) % 256, x % 256] = [a0, a1, a2, a3, a4, a5, a6, a7]
    simp only [Nat.shiftRight_eq_div_pow, List.cons.injEq, and_true]
    omega
  · simp only [List.length_cons] at hlen
    omega

/-- The leading `c.length` bytes of `PutUint64` of the left-justified value
of `c` are exactly `c`. -/
theorem bytesTake (c : List Nat) (h1 : 1 ≤ c.length) (hlen : c.length ≤ 8)
    (hb : ∀ b ∈ c, b < 256) :
    (beBytes8 ((beVal c <<< (64 - 8 * c.length)) % 2 ^ 64)).take c.length = c := by
  rcases c with _|⟨a0,_|⟨a1,_|⟨a2,_|⟨a3,_|⟨a4,_|⟨a5,_|⟨a6,_|⟨a7,_|⟨a8,c⟩⟩⟩⟩⟩⟩⟩⟩⟩
  · simp at h1
  · simp at hb
    show [((((0 * 256 + a0) <<< 56) % 2 ^ 64) >>> 56) % 256] = [a0]
    simp only [Nat.shiftLeft_eq, Nat.shiftRight_eq_div_pow, List.cons.injEq, and_true]
    omega
  · simp at hb
    show [(((((0 * 256 + a0) * 256 + a1) <<< 48) % 2 ^ 64) >>> 56) % 256, (((((0 * 256 + a0) * 256 + a1) <<< 48) % 2 ^ 64) >>> 48) % 256] = [a0, a1]
    simp only [Nat.shiftLeft_eq, Nat.shiftRight_eq_div_pow, List.cons.injEq, and_true]
    omega
  · simp at hb
    show [((((((0 * 256 + a0) * 256 + a1) * 256 + a2) <<< 40) % 2 ^ 64) >>> 56) % 256, ((((((0 * 256 + a0) * 256 + a1) * 256 + a2) <<< 40) % 2 ^ 64) >>> 48) % 256, ((((((0 * 256 + a0) * 256 + a1) * 256 + a2) <<< 40) % 2 ^ 64) >>> 40) % 256] = [a0, a1, a2]
    simp only [Nat.shiftLeft_eq, Nat.shiftRight_eq_div_pow, List.cons.injEq, and_true]
    omega
  · simp at hb
    show [(((((((0 * 256 + a0) * 256 + a1) * 256 + a2) * 256 + a3) <<< 32) % 2 ^ 64) >>> 56) % 256, (((((((0 * 256 + a0) * 256 + a1) * 256 + a2) * 256 + a3) <<< 32) % 2 ^ 64) >>> 48) % 256, (((((((0 * 256 + a0) * 256 + a1) * 256 + a2) * 256 + a3) <<< 32) % 2 ^ 64) >>> 40) % 256, (((((((0 * 256 + a0) * 256 + a1) * 256 + a2) * 256 + a3) <<< 32) % 2 ^ 64) >>> 32) % 256] = [a0, a1, a2, a3]
    simp only [Nat.shiftLeft_eq, Nat.shiftRight_eq_div_pow, List.cons.injEq, and_true]
    omega
  · simp at hb
    show [((((((((0 * 256 + a0) * 256 + a1) * 256 + a2) * 256 + a3) * 256 + a4) <<< 24) % 2 ^ 64) >>> 56) % 256, ((((((((0 * 256 + a0) * 256 + a1) * 256 + a2) * 256 + a3) * 256 + a4) <<< 24) % 2 ^ 64) >>> 48) % 256, ((((((((0 * 256 + a0) * 256 + a1) * 256 + a2) * 256 + a3) * 256 + a4) <<< 24) % 2 ^ 64) >>> 40) % 256, ((((((((0 * 256 + a0) * 256 + a1) * 256 + a2) * 256 + a3) * 256 + a4) <<< 24) % 2 ^ 64) >>> 32) % 256, ((((((((0 * 256 + a0) * 256 + a1) * 256 + a2) * 256 + a3) * 256 + a4) <<< 24) % 2 ^ 64) >>> 24) % 256] = [a0, a1, a2, a3, a4]
    simp only [Nat.shiftLeft_eq, Nat.shiftRight_eq_div_pow, List.cons.injEq, and_true]
    omega
  · simp at hb
    show [(((((((((0 * 256 + a0) * 256 + a1) * 256 + a2) * 256 + a3) * 256 + a4) * 256 + a5) <<< 16) % 2 ^ 64) >>> 56) % 256, (((((((((0 * 256 + a0) * 256 + a1) * 256 + a2) * 256 + a3) * 256 + a4) * 256 + a5) <<< 16) % 2 ^ 64) >>> 48) % 256, (((((((((0 * 256 + a0) * 256 + a1) * 256 + a2) * 256 + a3) * 256 + a4) * 256 + a5) <<< 16) % 2 ^ 64) >>> 40) % 256, (((((((((0 * 256 + a0) * 256 + a1) * 256 + a2) * 256 + a3) * 256 + a4) * 256 + a5) <<< 16) % 2 ^ 64) >>> 32) % 256, (((((((((0 * 256 + a0) * 256 + a1) * 256 + a2) * 256 + a3) * 256 + a4) * 256 + a5) <<< 16) % 2 ^ 64) >>> 24) % 256, (((((((((0 * 256 + a0) * 256 + a1) * 256 + a2) * 256 + a3) * 256 + a4) * 256 + a5) <<< 16) % 2 ^ 64) >>> 16) % 256] = [a0, a1, a2, a3, a4, a5]
    simp only [Nat.shiftLeft_eq, Nat.shiftRight_eq_div_pow, List.cons.injEq, and_true]
    omega
  · simp at hb
    show [((((((((((0 * 256 + a0) * 256 + a1) * 256 + a2) * 256 + a3) * 256 + a4) * 256 + a5) * 256 + a6) <<< 8) % 2 ^ 64) >>> 56) % 256, ((((((((((0 * 256 + a0) * 256 + a1) * 256 + a2) * 256 + a3) * 256 + a4) * 256 + a5) * 256 + a6) <<< 8) % 2 ^ 64) >>> 48) % 256, ((((((((((0 * 256 + a0) * 256 + a1) * 256 + a2) * 256 + a3) * 256 + a4) * 256 + a5) * 256 + a6) <<< 8) % 2 ^ 64) >>> 40) % 256, ((((((((((0 * 256 + a0) * 256 + a1) * 256 + a2) * 256 + a3) * 256 + a4) * 256 + a5) * 256 + a6) <<< 8) % 2 ^ 64) >>> 32) % 256, ((((((((((0 * 256 + a0) * 256 + a1) * 256 + a2) * 256 + a3) * 256 + a4) * 256 + a5) * 256 + a6) <<< 8) % 2 ^ 64) >>> 24) % 256, ((((((((((0 * 256 + a0) * 256 + a1) * 256 + a2) * 256 + a3) * 256 + a4) * 256 + a5) * 256 + a6) <<< 8) % 2 ^ 64) >>> 16) % 256, ((((((((((0 * 256 + a0) * 256 + a1) * 256 + a2) * 256 + a3) * 256 + a4) * 256 + a5) * 256 + a6) <<< 8) % 2 ^ 64) >>> 8) % 256] = [a0, a1, a2, a3, a4, a5, a6]
    simp only [Nat.shiftLeft_eq, Nat.shiftRight_eq_div_pow, List.cons.injEq, and_true]
    omega
  · simp at hb
    show [((((((((((0 * 256 + a0) * 256 + a1) * 256 + a2) * 256 + a3) * 256 + a4) * 256 + a5) * 256 + a6) * 256 + a7) % 2 ^ 64) >>> 56) % 256, ((((((((((0 * 256 + a0) * 256 + a1) * 256 + a2) * 256 + a3) * 256 + a4) * 256 + a5) * 256 + a6) * 256 + a7) % 2 ^ 64) >>> 48) % 256, ((((((((((0 * 256 + a0) * 256 + a1) * 256 + a2) * 256 + a3) * 256 + a4) * 256 + a5) * 256 + a6) * 256 + a7) % 2 ^ 64) >>> 40) % 256, ((((((((((0 * 256 + a0) * 256 + a1) * 256 + a2) * 256 + a3) * 256 + a4) * 256 + a5) * 256 + a6) * 256 + a7) % 2 ^ 64) >>> 32) % 256, ((((((((((0 * 256 + a0) * 256 + a1) * 256 + a2) * 256 + a3) * 256 + a4) * 256 + a5) * 256 + a6) * 256 + a7) % 2 ^ 64) >>> 24) % 256, ((((((((((0 * 256 + a0) * 256 + a1) * 256 + a2) * 256 + a3) * 256 + a4) * 256 + a5) * 256 + a6) * 256 + a7) % 2 ^ 64) >>> 16) % 256, ((((((((((0 * 256 + a0) * 256 + a1) * 256 + a2) * 256 + a3) * 256 + a4) * 256 + a5) * 256 + a6) * 256 + a7) % 2 ^ 64) >>> 8) % 256, (((((((((0 * 256 + a0) * 256 + a1) * 256 + a2) * 256 + a3) * 256 + a4) * 256 + a5) * 256 + a6) * 256 + a7) % 2 ^ 64) % 256] = [a0, a1, a2, a3, a4, a5, a6, a7]
    simp only [Nat.shiftLeft_eq, Nat.shiftRight_eq_div_pow, List.cons.injEq, and_true]
    omega
  · simp only [List.length_cons] at hlen
    omega

/-! ### Writer phase of the byte round trip -/

/-- Oring a value below `2 ^ k` into a shifted register touches only the low
`k` bits, and the result stays a uint64. -/
theorem or_low (a v k : Nat) (hk : k ≤ 64) (hv : v < 2 ^ k) :
    (((a <<< k) % 2 ^ 64) ||| v) % 2 ^ k = v ∧ ((a <<< k) % 2 ^ 64) ||| v < 2 ^ 64 := by
  have hsplit : (2 : Nat) ^ 64 = 2 ^ (64 - k) * 2 ^ k := by
    rw [← Nat.pow_add]
    congr 1
    omega
  rw [Nat.shiftLeft_eq, hsplit, Nat.mul_mod_mul_right, ← Nat.shiftLeft_eq,
    shiftLeft_or_eq_add hv]
  have hm : a % 2 ^ (64 - k) < 2 ^ (64 - k) := Nat.mod_lt _ (Nat.two_pow_pos _)
  constructor
  · rw [Nat.mul_comm (a % 2 ^ (64 - k)) (2 ^ k), Nat.mul_add_mod, Nat.mod_eq_of_lt hv]
  · have hd : (a % 2 ^ (64 - k) + 1) * 2 ^ k = (a % 2 ^ (64 - k)) * 2 ^ k + 2 ^ k := by ring
    have hmul : (a % 2 ^ (64 - k) + 1) * 2 ^ k ≤ 2 ^ (64 - k) * 2 ^ k :=
      Nat.mul_le_mul_right _ hm
    omega

/-- WriteBits of a full 8-byte chunk on an empty register: emits the chunk
(bit-order transform applied) and leaves the register logically empty. -/
theorem writeBits_chunk (count : Int) (hcount : count = 64) (s : List Nat) (f : Bool)
    (buf : Nat) (c : List Nat) (hc8 : c.length = 8) (hb : ∀ b ∈ c, b < 256) :
    Writer.writeBits ⟨okSink s, f, buf, 0⟩ count (beUint64 c)
      = (64, none, ⟨okSink (s ++ applyFlip f c), f, beVal c, 0⟩) := by
  subst hcount
  have hv : beUint64 c = beVal c := beUint64_eq_beVal hb (by omega)
  have hvlt : beVal c < 2 ^ 64 := by
    have h := beVal_lt hb
    rw [hc8] at h
    exact h
  have hbytes : beBytes8 (beVal c) = c := by
    have h := bytesDrop (beVal c) c (by omega) hb (by rw [hc8]; exact Nat.mod_eq_of_lt hvlt)
    rw [hc8] at h
    simpa using h
  rw [Writer.writeBits, if_neg (by norm_num)]
  dsimp only
  rw [show ((64 : Int).toNat = 64) from rfl]
  rw [show (min (64 - 0) 64 = 64) from rfl]
  rw [if_pos (by omega)]
  rw [show buf <<< 64 % 2 ^ 64 = 0 by rw [Nat.shiftLeft_eq, Nat.mul_mod_left]]
  rw [hv, Nat.mod_eq_of_lt hvlt]
  rw [Nat.zero_or]
  rw [show beVal c >>> (64 - 64) = beVal c from rfl]
  rw [hbytes]
  rw [show Sink.write (okSink s) (applyFlip f c)
      = ((applyFlip f c).length, none, okSink (s ++ applyFlip f c)) from rfl]

/-- WriteBits of a short trailing chunk on an empty register: no emit, the
chunk is buffered in the low bits of the register. -/
theorem writeBits_tail (s : List Nat) (f : Bool) (buf : Nat) (c : List Nat)
    (h1 : 1 ≤ c.length) (hlt : c.length < 8) (hb : ∀ b ∈ c, b < 256) :
    Writer.writeBits ⟨okSink s, f, buf, 0⟩ (8 * c.length : Nat) (beUint64 c)
      = (8 * c.length, none,
         ⟨okSink s, f, ((buf <<< (8 * c.length)) % 2 ^ 64) ||| beVal c, 8 * c.length⟩) := by
  have hv : beUint64 c = beVal c := beUint64_eq_beVal hb (by omega)
  have hvlt : beVal c < 2 ^ 64 := by
    have h := beVal_lt hb
    have hle : (2 : Nat) ^ (8 * c.length) ≤ 2 ^ 64 :=
      Nat.pow_le_pow_right (by norm_num) (by omega)
    omega
  rw [Writer.writeBits, if_neg (by
    push_neg
    constructor
    · positivity
    · exact_mod_cast (by omega : (8 * c.length : Nat) ≤ 64))]
  dsimp only
  rw [show ((8 * c.length : Nat) : Int).toNat = 8 * c.length from Int.toNat_ofNat _]
  rw [Nat.min_eq_right (by omega : 8 * c.length ≤ 64 - 0)]
  rw [if_neg (by omega)]
  rw [hv, Nat.mod_eq_of_lt hvlt]
  rw [Nat.sub_self, show beVal c >>> 0 = beVal c from rfl]
  norm_num

/-- Flush of a register holding a whole number of trailing bytes emits
exactly those bytes (bit-order transform applied). -/
theorem flush_bytes (s : List Nat) (f : Bool) (buf : Nat) (c : List Nat)
    (hlt : c.length ≤ 7) (hbuf : buf < 2 ^ 64) (hb : ∀ b ∈ c, b < 256)
    (hmod : buf % 2 ^ (8 * c.length) = beVal c) :
    Writer.flush ⟨okSink s, f, buf, 8 * c.length⟩
      = (none, ⟨okSink (s ++ applyFlip f c), f, buf, 0⟩) := by
  rcases Nat.eq_zero_or_pos c.length with hz | hpos
  · rw [List.eq_nil_of_length_eq_zero hz, Writer.flush]
    rw [if_neg (by simp)]
    simp [applyFlip, flipBits, noFlip]
  · rw [Writer.flush, if_pos (show Writer.nb ⟨okSink s, f, buf, 8 * c.length⟩ ≠ 0 by
      show 8 * c.length ≠ 0
      omega)]
    dsimp only
    rw [show Writer.padding ⟨okSink s, f, buf, 8 * c.length⟩ = 0 by
      simp [Writer.padding]]
    rw [show buf <<< 0 = buf from rfl, Nat.mod_eq_of_lt hbuf]
    rw [show 8 - (8 * c.length + 7) / 8 = 8 - c.length by omega]
    rw [bytesDrop buf c (by omega) hb hmod]
    rw [show Sink.write (okSink s) (applyFlip f c)
        = ((applyFlip f c).length, none, okSink (s ++ applyFlip f c)) from rfl]

/-- The full Write loop from an empty register on an accepting sink: it
emits every whole 8-byte chunk (bit-order transform applied), reports no
error and the byte count so far, and leaves the remaining tail bytes
buffered in the low bits of the register. -/
theorem writeLoop_spec (fuel : Nat) :
    ∀ (B s : List Nat) (f : Bool) (buf nbits : Nat),
      B.length ≤ fuel → (∀ b ∈ B, b < 256) → buf < 2 ^ 64 →
      ∃ buf', buf' < 2 ^ 64 ∧
        buf' % 2 ^ (8 * (B.length % 8)) = beVal (B.drop (8 * (B.length / 8))) ∧
        Writer.writeLoop fuel ⟨okSink s, f, buf, 0⟩ B nbits
          = (bitsToBytes (nbits + 8 * B.length), none,
             ⟨okSink (s ++ applyFlip f (B.take (8 * (B.length / 8)))), f, buf',
              8 * (B.length % 8)⟩) := by
  induction fuel with
  | zero =>
    intro B s f buf nbits hfuel hB hbuf
    have hBnil : B = [] := List.eq_nil_of_length_eq_zero (by omega)
    subst hBnil
    refine ⟨buf, hbuf, by simp [beVal]; omega, ?_⟩
    rw [Writer.writeLoop]
    norm_num [applyFlip, flipBits, noFlip]
  | succ n ih =>
    intro B s f buf nbits hfuel hB hbuf
    by_cases h8 : 8 < B.length
    · have htlen : (B.take 8).length = 8 := by
        rw [List.length_take]
        omega
      have htb : ∀ b ∈ B.take 8, b < 256 := fun b hbm => hB b (List.mem_of_mem_take hbm)
      have hdb : ∀ b ∈ B.drop 8, b < 256 := fun b hbm => hB b (List.mem_of_mem_drop hbm)
      have hchunklt : beVal (B.take 8) < 2 ^ 64 := by
        have h := beVal_lt htb
        rw [htlen] at h
        exact h
      obtain ⟨buf', hlt', hmod', heq⟩ := ih (B.drop 8) (s ++ applyFlip f (B.take 8)) f
        (beVal (B.take 8)) (nbits + 64) (by rw [List.length_drop]; omega) hdb hchunklt
      refine ⟨buf', hlt', ?_, ?_⟩
      · rw [List.length_drop] at hmod'
        rw [List.drop_drop] at hmod'
        have e1 : (B.length - 8) % 8 = B.length % 8 := by omega
        have e2 : 8 + 8 * ((B.length - 8) / 8) = 8 * (B.length / 8) := by omega
        rw [e1, e2] at hmod'
        exact hmod'
      · rw [Writer.writeLoop, if_pos h8]
        rw [writeBits_chunk 64 rfl s f buf (B.take 8) htlen htb]
        dsimp only
        rw [heq]
        rw [List.length_drop]
        rw [show nbits + 64 + 8 * (B.length - 8) = nbits + 8 * B.length by omega]
        rw [show 8 * ((B.length - 8) % 8) = 8 * (B.length % 8) by omega]
        rw [List.append_assoc, ← applyFlip_append, ← List.take_add]
        rw [show 8 + 8 * ((B.length - 8) / 8) = 8 * (B.length / 8) by omega]
    · by_cases h0 : 0 < B.length
      · rcases eq_or_lt_of_le (not_lt.mp h8) with heq8 | hlt8
        · -- exactly 8 bytes: the tail call still fills the register and emits
          have htake : B.take 8 = B := List.take_of_length_le (by omega)
          have heq8' : B.length = 8 := heq8
          refine ⟨beVal B, by have h := beVal_lt hB; rw [heq8'] at h; exact h, ?_, ?_⟩
          · have e0 : 8 * (B.length / 8) = 8 := by omega
            have e1 : 8 * (B.length % 8) = 0 := by omega
            rw [e0, e1, List.drop_eq_nil_of_le (by omega)]
            simp [beVal]
            omega
          · rw [Writer.writeLoop, if_neg h8, if_pos h0]
            rw [writeBits_chunk (8 * B.length : Nat) (by rw [heq8']; rfl) s f buf B heq8' hB]
            dsimp only
            rw [heq8']
            simp only [Prod.mk.injEq, Writer.mk.injEq, Sink.mk.injEq, okSink]
            norm_num [htake]
        · -- fewer than 8 bytes: buffered, nothing emitted
          have hvlt : beVal B < 2 ^ (8 * B.length) := beVal_lt hB
          have hk64 : 8 * B.length ≤ 64 := by omega
          obtain ⟨hm, hb64⟩ := or_low buf (beVal B) (8 * B.length) hk64 hvlt
          refine ⟨((buf <<< (8 * B.length)) % 2 ^ 64) ||| beVal B, hb64, ?_, ?_⟩
          · have e1 : B.length % 8 = B.length := by omega
            have e2 : B.length / 8 = 0 := by omega
            rw [e1, e2]
            simpa using hm
          · rw [Writer.writeLoop, if_neg h8, if_pos h0]
            rw [writeBits_tail s f buf B (by omega) hlt8 hB]
            dsimp only
            have e1 : B.length % 8 = B.length := by omega
            have e2 : B.length / 8 = 0 := by omega
            rw [e1, e2]
            simp only [Prod.mk.injEq, Writer.mk.injEq, Sink.mk.injEq, okSink]
            norm_num [applyFlip_nil]
      · have hBnil : B = [] := List.eq_nil_of_length_eq_zero (by omega)
        subst hBnil
        refine ⟨buf, hbuf, by simp [beVal]; omega, ?_⟩
        rw [Writer.writeLoop]
        norm_num [applyFlip, flipBits, noFlip]

/-- Writing a byte sequence through the adapter on a fresh writer and
flushing emits exactly the sequence, bit-order transform applied per byte,
and reports the byte count with no error. -/
theorem write_then_flush (B : List Nat) (f : Bool) (hb : ∀ b ∈ B, b < 256) :
    ((NewWriter f).write B).1 = B.length ∧
    ((NewWriter f).write B).2.1 = none ∧
    ((((NewWriter f).write B).2.2).flush).1 = none ∧
    ((((NewWriter f).write B).2.2).flush).2.sink.written = applyFlip f B := by
  obtain ⟨buf', hlt', hmod', heq⟩ :=
    writeLoop_spec B.length B [] f 0 0 (le_refl _) hb (by norm_num)
  rw [List.nil_append] at heq
  have hwrite : (NewWriter f).write B
      = (bitsToBytes (0 + 8 * B.length), none,
         ⟨okSink (applyFlip f (B.take (8 * (B.length / 8)))), f, buf',
          8 * (B.length % 8)⟩) := heq
  have hclen : (B.drop (8 * (B.length / 8))).length = B.length % 8 := by
    rw [List.length_drop]
    omega
  have hdropb : ∀ b ∈ B.drop (8 * (B.length / 8)), b < 256 := fun b hbm =>
    hb b (List.mem_of_mem_drop hbm)
  have hmod'' : buf' % 2 ^ (8 * (B.drop (8 * (B.length / 8))).length)
      = beVal (B.drop (8 * (B.length / 8))) := by
    rw [hclen]
    exact hmod'
  have hflush := flush_bytes (applyFlip f (B.take (8 * (B.length / 8)))) f buf'
    (B.drop (8 * (B.length / 8))) (by omega) hlt' hdropb hmod''
  rw [hclen] at hflush
  rw [← applyFlip_append, List.take_append_drop] at hflush
  rw [hwrite]
  refine ⟨?_, rfl, ?_, ?_⟩
  · show bitsToBytes (0 + 8 * B.length) = B.length
    unfold bitsToBytes
    omega
  · show (Writer.flush ⟨okSink (applyFlip f (B.take (8 * (B.length / 8)))), f, buf',
      8 * (B.length % 8)⟩).1 = none
    rw [hflush]
  · show (Writer.flush ⟨okSink (applyFlip f (B.take (8 * (B.length / 8)))), f, buf',
      8 * (B.length % 8)⟩).2.sink.written = applyFlip f B
    rw [hflush]
    rfl

/-! ### Reader phase of the byte round trip -/

theorem overwrite_zero : ∀ (xs c : List Nat), c.length ≤ xs.length →
    overwrite xs 0 c = c ++ xs.drop c.length := by
  intro xs c
  induction c generalizing xs with
  | nil =>
    intro _
    cases xs <;> simp [overwrite]
  | cons s ss ih =>
    intro hlen
    cases xs with
    | nil => simp at hlen
    | cons d ds =>
      simp only [overwrite, List.cons_append, List.length_cons, List.drop_succ_cons]
      rw [ih ds (by simpa using hlen)]

theorem overwrite_append (pre : List Nat) : ∀ (xs c : List Nat), c.length ≤ xs.length →
    overwrite (pre ++ xs) pre.length c = pre ++ (c ++ xs.drop c.length) := by
  induction pre with
  | nil =>
    intro xs c hlen
    simp only [List.nil_append, List.length_nil]
    exact overwrite_zero xs c hlen
  | cons d pre ih =>
    intro xs c hlen
    simp only [List.cons_append, List.length_cons, overwrite, List.append_eq]
    rw [ih xs c hlen]

/-- One whole iteration's ReadBits inside the byte-adapter loop: register
empty, source holding the transformed remaining bytes; the head chunk is
loaded and delivered whole. -/
theorem readBits_loop_chunk (rest : List Nat) (f : Bool) (buf : Nat) (code : Nat)
    (hrest : rest ≠ []) (hb : ∀ b ∈ rest, b < 256) :
    Reader.readBits ⟨⟨applyFlip f rest, false, code⟩, f, buf, 0⟩ (8 * min 8 rest.length : Nat)
      = (8 * min 8 rest.length, none, some (beVal (rest.take 8)),
         ⟨⟨applyFlip f (rest.drop 8), false, code⟩, f, beVal (rest.take 8), 0⟩) := by
  have hm1 : 1 ≤ min 8 rest.length := by
    have := List.length_pos.mpr hrest
    omega
  have htb : ∀ b ∈ rest.take 8, b < 256 := fun b hbm => hb b (List.mem_of_mem_take hbm)
  have htlen : (rest.take 8).length = min 8 rest.length := List.length_take 8 rest
  have hvlt : beVal (rest.take 8) < 2 ^ 64 := by
    have h := beVal_lt htb
    have h2 : (2 : Nat) ^ (8 * (rest.take 8).length) ≤ 2 ^ 64 := by
      apply Nat.pow_le_pow_right (by norm_num)
      rw [htlen]
      omega
    omega
  have hcnt : ((8 * min 8 rest.length : Nat) : Int).toNat = 8 * min 8 rest.length :=
    Int.toNat_ofNat _
  have hlem := readBits_refill ⟨⟨applyFlip f rest, false, code⟩, f, buf, 0⟩
    (8 * min 8 rest.length : Nat)
    (by positivity)
    (by exact_mod_cast (show 8 * min 8 rest.length ≤ 64 by omega))
    (show (0 : Nat) < ((8 * min 8 rest.length : Nat) : Int).toNat by rw [hcnt]; omega)
    rfl
    (show (0 : Nat) ≤ 64 by norm_num)
    (applyFlip f (rest.take 8)) (min 8 rest.length) (beVal (rest.take 8))
    (8 * min 8 rest.length)
    ((applyFlip_take f rest 8).symm)
    (by rw [applyFlip_length, htlen])
    (by rw [applyFlip_append, applyFlip_replicate_zero, applyFlip_applyFlip f htb,
        beUint64_replicate_zero_append, beUint64_eq_beVal htb (by rw [htlen]; omega)])
    (show (8 * min 8 rest.length : Nat)
        = min (8 * min 8 rest.length) (((8 * min 8 rest.length : Nat) : Int).toNat - 0) by
      rw [hcnt]
      omega)
  rw [hcnt] at hlem
  rw [if_neg (show ¬(8 * min 8 rest.length < 8 * min 8 rest.length - 0) by omega)] at hlem
  rw [Nat.sub_self] at hlem
  rw [show (beVal (rest.take 8)) >>> 0 = beVal (rest.take 8) from rfl] at hlem
  rw [show buf % 2 ^ (0 : Nat) = 0 by omega] at hlem
  rw [Nat.zero_shiftLeft, Nat.zero_or, Nat.mod_eq_of_lt hvlt] at hlem
  rw [applyFlip_drop] at hlem
  rw [Nat.zero_add] at hlem
  exact hlem

/-- The byte-adapter Read loop over a source holding exactly the remaining
bytes (transformed per the bit-order policy): it fills the zeroed region of
the buffer with those bytes and reports their count with no error. -/
theorem readLoop_spec (fuel : Nat) :
    ∀ (rest pre : List Nat) (f : Bool) (buf code nread : Nat),
      rest.length ≤ fuel → (∀ b ∈ rest, b < 256) →
      ∃ rfin : Reader,
        Reader.readLoop fuel ⟨⟨applyFlip f rest, false, code⟩, f, buf, 0⟩
            (pre ++ List.replicate rest.length 0) pre.length nread none
          = (nread + rest.length, none, pre ++ rest, rfin) := by
  induction fuel with
  | zero =>
    intro rest pre f buf code nread hfuel hb
    have hnil : rest = [] := List.eq_nil_of_length_eq_zero (by omega)
    subst hnil
    refine ⟨⟨⟨applyFlip f [], false, code⟩, f, buf, 0⟩, ?_⟩
    rw [Reader.readLoop, if_neg (by simp)]
    simp [applyFlip_nil]
  | succ n ih =>
    intro rest pre f buf code nread hfuel hb
    rcases eq_or_ne rest [] with hnil | hne
    · subst hnil
      refine ⟨⟨⟨applyFlip f [], false, code⟩, f, buf, 0⟩, ?_⟩
      rw [Reader.readLoop, if_neg (by simp)]
      simp [applyFlip_nil]
    · have hrl : 1 ≤ rest.length := List.length_pos.mpr hne
      have htlen : (rest.take 8).length = min 8 rest.length := List.length_take 8 rest
      have htb : ∀ b ∈ rest.take 8, b < 256 := fun b hbm => hb b (List.mem_of_mem_take hbm)
      have hdb : ∀ b ∈ rest.drop 8, b < 256 := fun b hbm => hb b (List.mem_of_mem_drop hbm)
      have hguard : pre.length < (pre ++ List.replicate rest.length 0).length ∧
          (none : Option Err) ≠ some .eof := by
        constructor
        · rw [List.length_append, List.length_replicate]
          omega
        · simp
      rw [Reader.readLoop, if_pos hguard]
      dsimp only
      rw [List.length_append, List.length_replicate]
      rw [show min (pre.length + 8) (pre.length + rest.length)
          = pre.length + min 8 rest.length by omega]
      rw [show pre.length + min 8 rest.length - pre.length = min 8 rest.length by omega]
      rw [readBits_loop_chunk rest f buf code hne hb]
      dsimp only
      rw [if_neg (by simp)]
      dsimp only [Option.getD_some]
      rw [show bitsToBytes (8 * min 8 rest.length) = min 8 rest.length by
        unfold bitsToBytes
        omega]
      have htk := bytesTake (rest.take 8) (by omega) (by omega) htb
      rw [htlen] at htk
      rw [htk]
      rw [overwrite_append pre (List.replicate rest.length 0) (rest.take 8) (by
        rw [htlen, List.length_replicate]
        omega)]
      rw [htlen, List.drop_replicate]
      rw [show rest.length - min 8 rest.length = (rest.drop 8).length by
        rw [List.length_drop]
        omega]
      rw [← List.append_assoc]
      rw [show pre.length + min 8 rest.length = (pre ++ rest.take 8).length by
        rw [List.length_append, htlen]]
      obtain ⟨rfin, hrec⟩ := ih (rest.drop 8) (pre ++ rest.take 8) f
        (beVal (rest.take 8)) code (nread + min 8 rest.length)
        (by rw [List.length_drop]; omega) hdb
      refine ⟨rfin, ?_⟩
      rw [hrec]
      rw [show nread + min 8 rest.length + (rest.drop 8).length = nread + rest.length by
        rw [List.length_drop]
        omega]
      rw [List.append_assoc, List.take_append_drop]

/-- Claim C1: byte round trip.  For every byte sequence B and either
bit-order policy, writing B via the byte adapter's Write, then Flush, then
reading the produced byte stream back through the byte adapter's Read into
a buffer of length len(B) under the same policy fills the buffer with
exactly B and reports len(B) bytes read (both adapter calls succeed). -/
theorem claim_c1 (B : List Nat) (f : Bool) (hb : ∀ b ∈ B, b < 256) :
    ((NewWriter f).write B).2.1 = none ∧
    ((((NewWriter f).write B).2.2).flush).1 = none ∧
    ((NewReader f (((((NewWriter f).write B).2.2).flush).2.sink.written)).read
        (List.replicate B.length 0)).1 = B.length ∧
    ((NewReader f (((((NewWriter f).write B).2.2).flush).2.sink.written)).read
        (List.replicate B.length 0)).2.2.1 = B := by
  obtain ⟨hcount, hwerr, hferr, hwritten⟩ := write_then_flush B f hb
  obtain ⟨rfin, hloop⟩ := readLoop_spec B.length B [] f 0 0 0 (le_refl _) hb
  rw [List.nil_append, List.length_nil] at hloop
  have hread : (NewReader f (applyFlip f B)).read (List.replicate B.length 0)
      = (0 + B.length, none, B, rfin) := by
    rw [Reader.read, List.length_replicate]
    exact hloop
  refine ⟨hwerr, hferr, ?_, ?_⟩
  · rw [hwritten, hread]
    norm_num
  · rw [hwritten, hread]

/-- Witness for C1 at B = A9 07 FF under the LSB-first policy. -/
theorem claim_c1_witness :
    ((NewWriter true).write [0xA9, 0x07, 0xFF]).2.1 = none ∧
    ((((NewWriter true).write [0xA9, 0x07, 0xFF]).2.2).flush).1 = none ∧
    ((NewReader true (((((NewWriter true).write [0xA9, 0x07, 0xFF]).2.2).flush).2.sink.written)).read
        (List.replicate (List.length [0xA9, 0x07, 0xFF]) 0)).1 = List.length [0xA9, 0x07, 0xFF] ∧
    ((NewReader true (((((NewWriter true).write [0xA9, 0x07, 0xFF]).2.2).flush).2.sink.written)).read
        (List.replicate (List.length [0xA9, 0x07, 0xFF]) 0)).2.2.1 = [0xA9, 0x07, 0xFF] :=
  claim_c1 [0xA9, 0x07, 0xFF] true (by decide)

end Bitstream
